import Mathlib

/-!
Verification of the grammar-web-app text-annotation pipeline (`app.py`).

Strings are modelled as `List Char` restricted to the ASCII behaviour of the
Python primitives the code uses (`str.lower`, `str.strip`, `re` character
classes `\b`, `\d`, `\s`, `[a-z]`).  Regular-expression substitution with a
literal, `re.escape`d pattern is modelled by explicit left-to-right scanners;
replacement strings are taken literally (all replacement strings used by the
repository contain no backslash template escapes).  The remote LanguageTool
call and the loaded Black's Law dictionary are parameters: the network
response is an `Except` (exception) of an `Option` (missing `matches` field)
of a match list, and the dictionary is an association list.
-/

/-- Convert a Lean string literal to the `List Char` representation. -/
def s2l (s : String) : List Char := s.data

/-- ASCII model of Python `str.lower` on one character. -/
def pyLowerChar (c : Char) : Char :=
  if 'A' ≤ c && c ≤ 'Z' then Char.ofNat (c.toNat + 32) else c

/-- Python `str.lower` over a whole string. -/
def lowerList (t : List Char) : List Char := t.map pyLowerChar

/-- ASCII whitespace as recognised by Python `str.strip` and `\s`. -/
def isPySpace (c : Char) : Bool :=
  c = ' ' || c = '\t' || c = '\n' || c.toNat = 13 || c.toNat = 11 || c.toNat = 12

/-- Python `str.strip` (both ends). -/
def pyStrip (t : List Char) : List Char :=
  ((t.dropWhile isPySpace).reverse.dropWhile isPySpace).reverse

/-- `a-z` test used by the `^[a-z]+$` filter. -/
def isLowerAZ (c : Char) : Bool := 'a' ≤ c && c ≤ 'z'

/-- ASCII digits, for `\d`. -/
def isAsciiDigit (c : Char) : Bool := '0' ≤ c && c ≤ '9'

/-- Regex word character `\w` (ASCII), used by `\b`. -/
def isWordChar (c : Char) : Bool :=
  isLowerAZ c || ('A' ≤ c && c ≤ 'Z') || isAsciiDigit c || c = '_'

/-- Word-character test on an optional character (`none` = outside the text). -/
def wordOpt : Option Char → Bool
  | none => false
  | some c => isWordChar c

/-- Case-insensitive character equality, as under `re.IGNORECASE` (ASCII). -/
def ciEq (a b : Char) : Bool := pyLowerChar a == pyLowerChar b

/-- `w` is a case-insensitive prefix of `t`. -/
def ciPrefixB : List Char → List Char → Bool
  | [], _ => true
  | _ :: _, [] => false
  | c :: w, d :: t => ciEq c d && ciPrefixB w t

/-- Some case-insensitive occurrence of `w` starts somewhere in `t`
(the test performed by `re.search` on `re.escape(w)` with `IGNORECASE`). -/
def ciSearch (w : List Char) : List Char → Bool
  | [] => ciPrefixB w []
  | c :: r => ciPrefixB w (c :: r) || ciSearch w r

/-- Python substring containment `needle in hay` (case-sensitive). -/
def hasSub (needle : List Char) : List Char → Bool
  | [] => needle.isPrefixOf []
  | c :: r => needle.isPrefixOf (c :: r) || hasSub needle r

/-- The pattern `\b re.escape(w) \b` with `re.IGNORECASE` matches at the
current position of `t`, where `prev` is the character just before that
position (`none` at the start of the text).  For empty `w` the pattern is a
bare word boundary. -/
def matchAt (w : List Char) (prev : Option Char) (t : List Char) : Bool :=
  match w with
  | [] => wordOpt prev != wordOpt t.head?
  | _ :: _ =>
    (wordOpt prev != wordOpt t.head?) && ciPrefixB w t &&
      (wordOpt ((t.take w.length).getLast?) != wordOpt ((t.drop w.length).head?))

/-- Left-to-right scanner of
`re.sub(r"\b" + re.escape(w) + r"\b", new, text, flags=re.IGNORECASE)`:
every non-overlapping match is replaced (Python `re.sub` replaces all
matches).  `skip` counts characters of the current match still to be
consumed; `prev` is the previous original character. -/
def subWordGo (w new : List Char) (prev : Option Char) (skip : Nat)
    (t : List Char) : List Char :=
  match t with
  | [] =>
    match skip with
    | 0 => if matchAt w prev [] then new else []
    | _ + 1 => []
  | c :: r =>
    match skip with
    | k + 1 => subWordGo w new (some c) k r
    | 0 =>
      if matchAt w prev (c :: r) then
        match w with
        | [] => new ++ c :: subWordGo w new (some c) 0 r
        | _ :: wr => new ++ subWordGo w new (some c) wr.length r
      else c :: subWordGo w new (some c) 0 r

/-- `re.sub(r"\b" + re.escape(w) + r"\b", new, t, flags=re.IGNORECASE)`. -/
def subWordCI (w new t : List Char) : List Char := subWordGo w new none 0 t

/-- `re.search` for the same word-bounded case-insensitive pattern. -/
def searchWordGo (w : List Char) (prev : Option Char) : List Char → Bool
  | [] => matchAt w prev []
  | c :: r => matchAt w prev (c :: r) || searchWordGo w (some c) r

/-- `re.search(r"\b" + re.escape(w) + r"\b", t, flags=re.IGNORECASE)`. -/
def searchWordCI (w t : List Char) : Bool := searchWordGo w none t

/-- Scanner of `re.sub(re.escape(w), new, t, flags=re.IGNORECASE)` (no word
boundaries); an empty pattern matches the empty string at every position. -/
def subCIGo (w new : List Char) (skip : Nat) (t : List Char) : List Char :=
  match t with
  | [] =>
    match skip with
    | 0 => if ciPrefixB w [] then new else []
    | _ + 1 => []
  | c :: r =>
    match skip with
    | k + 1 => subCIGo w new k r
    | 0 =>
      if ciPrefixB w (c :: r) then
        match w with
        | [] => new ++ c :: subCIGo w new 0 r
        | _ :: wr => new ++ subCIGo w new wr.length r
      else c :: subCIGo w new 0 r

/-- `re.sub(re.escape(w), new, t, flags=re.IGNORECASE)`. -/
def subCI (w new t : List Char) : List Char := subCIGo w new 0 t

/-- Scanner of Python `t.replace(w, new)` (case-sensitive, all
occurrences; an empty `w` inserts `new` at every position). -/
def strReplaceGo (w new : List Char) (skip : Nat) (t : List Char) : List Char :=
  match t with
  | [] =>
    match skip with
    | 0 => if w.isPrefixOf [] then new else []
    | _ + 1 => []
  | c :: r =>
    match skip with
    | k + 1 => strReplaceGo w new k r
    | 0 =>
      if w.isPrefixOf (c :: r) then
        match w with
        | [] => new ++ c :: strReplaceGo w new 0 r
        | _ :: wr => new ++ strReplaceGo w new wr.length r
      else c :: strReplaceGo w new 0 r

/-- Python `t.replace(w, new)`. -/
def strReplace (w new t : List Char) : List Char := strReplaceGo w new 0 t

/-- Python `html.escape` (with the default `quote=True`). -/
def htmlEscape (t : List Char) : List Char :=
  t.flatMap fun c =>
    if c = '&' then s2l "&amp;"
    else if c = '<' then s2l "&lt;"
    else if c = '>' then s2l "&gt;"
    else if c = '"' then s2l "&quot;"
    else if c = '\'' then s2l "&#x27;"
    else [c]

/-- `normalize_key`: `re.sub(r"[^a-z\s]", "", word.lower().strip())`. -/
def normalize_key (word : List Char) : List Char :=
  (pyStrip (lowerList word)).filter fun c => isLowerAZ c || isPySpace c

/-- The loaded `BLACKLAW` dictionary: association list from key to meaning. -/
abbrev Blacklaw := List (List Char × List Char)

/-- Python `key in BLACKLAW`. -/
def blHasKey (bl : Blacklaw) (k : List Char) : Bool :=
  bl.any fun p => p.1 == k

/-- Python `BLACKLAW.get(key, default)`. -/
def blGet (bl : Blacklaw) (k : List Char) (dflt : List Char) : List Char :=
  match bl.find? fun p => p.1 == k with
  | some p => p.2
  | none => dflt

/-- The `LEGAL_FIX` table, in source (insertion) order. -/
def LEGAL_FIX : List (List Char × List Char) :=
  [ (s2l "prima facia", s2l "prima facie"),
    (s2l "mens reaa", s2l "mens rea"),
    (s2l "ratio decedendi", s2l "ratio decidendi"),
    (s2l "precedant", s2l "precedent"),
    (s2l "jurispridence", s2l "jurisprudence"),
    (s2l "suo moto", s2l "suo motu") ]

/-- `re.match(r"^\[\d+\]$", s)`: a bracketed citation such as `[12]`. -/
def bracketCitation : List Char → Bool
  | '[' :: rest =>
    rest.getLast? == some ']' && !rest.dropLast.isEmpty &&
      rest.dropLast.all isAsciiDigit
  | _ => false

/-- Four consecutive ASCII digits start here. -/
def fourDigitsAt : List Char → Bool
  | d1 :: d2 :: d3 :: d4 :: _ =>
    isAsciiDigit d1 && isAsciiDigit d2 && isAsciiDigit d3 && isAsciiDigit d4
  | _ => false

/-- Four consecutive ASCII digits occur somewhere in the list. -/
def containsFourDigits : List Char → Bool
  | [] => false
  | c :: r => fourDigitsAt (c :: r) || containsFourDigits r

/-- `re.match(r"^\(.+\d{4}.*\)$", s)`: a parenthesised run containing a
four-digit year after at least one character; `.` does not match `\n`. -/
def parenYear : List Char → Bool
  | '(' :: rest =>
    rest.getLast? == some ')' && !(rest.dropLast.contains '\n') &&
      (match rest.dropLast with
       | [] => false
       | _ :: mid => containsFourDigits mid)
  | _ => false

/-- `is_reference_like` from `app.py`. -/
def is_reference_like (line : List Char) : Bool :=
  let s := pyStrip line
  s.isEmpty || hasSub (s2l "http") s || hasSub (s2l "www.") s ||
    hasSub (s2l "doi") (lowerList s) || bracketCitation s || parenYear s

/-- One replacement candidate from the grammar source
(`{"value": ...}`). -/
structure LTRep where
  value : List Char
deriving DecidableEq

/-- One grammar-source match (`offset`/`length`/`message`/`replacements`). -/
structure LTMatch where
  offset : Nat
  length : Nat
  message : List Char
  replacements : List LTRep
deriving DecidableEq

/-- The filtered result of `lt_check_sentence` (only its `matches` field is
read downstream; `matches` is a Lean keyword, hence the `L` suffix). -/
structure LTResult where
  matchesL : List LTMatch
deriving DecidableEq

/-- The per-replacement filter inside `lt_check_sentence`: a candidate is
kept iff its stripped lowercase text has length within 3 of the match
length, is not one of three stop words, and is a dictionary key or consists
only of `a-z`. -/
def ltRepOk (bl : Blacklaw) (len : Nat) (rep : LTRep) : Bool :=
  let s := lowerList (pyStrip rep.value)
  if 3 < Nat.dist s.length len then false
  else if s == s2l "motor" || s == s2l "father" || s == s2l "furthermore" then false
  else if !blHasKey bl s then !s.isEmpty && s.all isLowerAZ
  else true

/-- The per-match step of `lt_check_sentence`: keep the match (with its
surviving replacements) only when some replacement survives. -/
def ltFilterMatch (bl : Blacklaw) (m : LTMatch) : Option LTMatch :=
  let good := m.replacements.filter (ltRepOk bl m.length)
  if good.isEmpty then none else some { m with replacements := good }

/-- `lt_check_sentence`, with the network interaction abstracted: the raw
response is an exception (`Except.error`), a payload lacking the `matches`
field (`Except.ok none`), or a list of matches.  Any exception yields
`{"matches": []}`. -/
def lt_check_sentence (bl : Blacklaw) (raw : Except Unit (Option (List LTMatch))) :
    LTResult :=
  match raw with
  | Except.error _ => ⟨[]⟩
  | Except.ok o => ⟨(o.getD []).filterMap (ltFilterMatch bl)⟩

/-- The body of the `LEGAL_FIX` loop in `apply_legal_corrections`: when the
wrong phrase occurs whole-word case-insensitively, substitute it everywhere
and record the fix with the dictionary meaning of its correction. -/
def legalFixStep (bl : Blacklaw)
    (acc : List Char × List (List Char × List Char × List Char))
    (p : List Char × List Char) :
    List Char × List (List Char × List Char × List Char) :=
  if searchWordCI p.1 acc.1 then
    (subWordCI p.1 p.2 acc.1,
     acc.2 ++ [(p.1, p.2,
       blGet bl (normalize_key p.2)
         (s2l "(Meaning not found in Black’s Law Dictionary)"))])
  else acc

/-- `apply_legal_corrections`: fold the `LEGAL_FIX` table over the
sentence. -/
def apply_legal_corrections (bl : Blacklaw) (sentence : List Char) :
    List Char × List (List Char × List Char × List Char) :=
  LEGAL_FIX.foldl (legalFixStep bl) (sentence, [])

/-- A user replacement request `{"old": ..., "new": ...}`. -/
structure Replacement where
  old : List Char
  new : List Char
deriving DecidableEq

/-- `apply_replacements_to_doc`: for every paragraph and every request, if
the old text occurs as a substring case-insensitively, substitute the
whole-word case-insensitive pattern (all occurrences, `re.sub` default). -/
def apply_replacements_to_doc (paras : List (List Char))
    (reps : List Replacement) : List (List Char) :=
  paras.map fun p =>
    reps.foldl
      (fun text r =>
        if hasSub (lowerList r.old) (lowerList text) then
          subWordCI r.old r.new text
        else text)
      p

/-- Python truthiness of the `black_sug` / `general_sug` locals: `None` and
the empty string are falsy. -/
def pyTruthy : Option (List Char) → Bool
  | none => false
  | some s => !s.isEmpty

/-- The accumulation loop over a match's replacements in
`process_text_line_by_line`: `black_sug` is set to the stripped candidate
when its normalised form is a dictionary key and `black_sug` is still
falsy, and `general_sug` symmetrically for non-dictionary candidates. -/
def pickSugs (bl : Blacklaw) (reps : List LTRep) :
    Option (List Char) × Option (List Char) :=
  reps.foldl
    (fun acc rep =>
      let cand := pyStrip rep.value
      let norm := normalize_key cand
      (if blHasKey bl norm && !pyTruthy acc.1 then some cand else acc.1,
       if !blHasKey bl norm && !pyTruthy acc.2 then some cand else acc.2))
    (none, none)

/-- The first-component update of the `pickSugs` loop. -/
def pickB (bl : Blacklaw) (b : Option (List Char)) (rep : LTRep) :
    Option (List Char) :=
  if blHasKey bl (normalize_key (pyStrip rep.value)) && !pyTruthy b then
    some (pyStrip rep.value)
  else b

/-- The second-component update of the `pickSugs` loop. -/
def pickG (bl : Blacklaw) (g : Option (List Char)) (rep : LTRep) :
    Option (List Char) :=
  if !blHasKey bl (normalize_key (pyStrip rep.value)) && !pyTruthy g then
    some (pyStrip rep.value)
  else g

/-- Common shape of `pickB`/`pickG`, used to reason about the fold: keep
the first candidate satisfying `φ` while the accumulator is falsy. -/
def pickGen (φ : LTRep → Bool) (b : Option (List Char)) (rep : LTRep) :
    Option (List Char) :=
  if φ rep && !pyTruthy b then some (pyStrip rep.value) else b

/-- `primary_sug = black_sug or general_sug or reps[0]["value"]`. -/
def primaryOf (bl : Blacklaw) (r0 : LTRep) (rest : List LTRep) : List Char :=
  let p := pickSugs bl (r0 :: rest)
  if pyTruthy p.1 then p.1.getD []
  else if pyTruthy p.2 then p.2.getD []
  else r0.value

/-- The HTML span emitted for a legal correction; its visible content is
the escaped corrected phrase. -/
def legalSpanHtml (we ce : List Char) : List Char :=
  s2l "<span class='error legal-correct' data-wrong='" ++ we ++
    s2l "' data-suggestion='" ++ ce ++
    s2l "' data-black-suggestion='" ++ ce ++
    s2l "' data-general-suggestion='' data-message='Legal correction'>" ++
    ce ++ s2l "</span>"

/-- The HTML span emitted for a grammar match; its visible content is the
escaped flagged text. -/
def grammarSpanHtml (we pe be ge : List Char) : List Char :=
  s2l "<span class='error grammar-wrong' data-wrong='" ++ we ++
    s2l "' data-suggestion='" ++ pe ++
    s2l "' data-black-suggestion='" ++ be ++
    s2l "' data-general-suggestion='" ++ ge ++
    s2l "'>" ++ we ++ s2l "</span>"

/-- One issue row appended to the `issues` list. -/
structure Issue where
  line : Nat
  wrong : List Char
  suggestion : List Char
  message : List Char
  meaning : List Char
deriving DecidableEq

/-- The body of the legal-hit loop in `process_text_line_by_line`: rewrite
the current html line (case-insensitive substitution of the wrong phrase by
its span) and append the issue. -/
def legalStep (i : Nat) (acc : List Char × List Issue)
    (hit : List Char × List Char × List Char) : List Char × List Issue :=
  (subCI hit.1 (legalSpanHtml (htmlEscape hit.1) (htmlEscape hit.2.1)) acc.1,
   acc.2 ++ [⟨i, hit.1, hit.2.1, s2l "Legal correction", hit.2.2⟩])

/-- The body of the grammar-match loop in `process_text_line_by_line`:
select the primary suggestion, slice the flagged text out of the corrected
line, rewrite the html line (`str.replace`, all occurrences) and append the
issue.  Matches without replacements are skipped. -/
def processMatch (bl : Blacklaw) (corrected : List Char) (i : Nat)
    (acc : List Char × List Issue) (m : LTMatch) : List Char × List Issue :=
  match m.replacements with
  | [] => acc
  | r0 :: rest =>
    let primary := primaryOf bl r0 rest
    let wrong := (corrected.drop m.offset).take m.length
    let meaning := blGet bl (normalize_key primary) (s2l "(No meaning found)")
    let b := (pickSugs bl (r0 :: rest)).1
    let g := (pickSugs bl (r0 :: rest)).2
    let be := if pyTruthy b then htmlEscape (b.getD []) else []
    let ge := if pyTruthy g then htmlEscape (g.getD []) else []
    (strReplace wrong
       (grammarSpanHtml (htmlEscape wrong) (htmlEscape primary) be ge) acc.1,
     acc.2 ++ [⟨i, wrong, primary, m.message, meaning⟩])

/-- The loop body of `process_text_line_by_line` for the line numbered `i`
(numbering starts at 1): legal corrections are applied first, then the
grammar source is consulted on the corrected line; the html line and the
issue list are threaded through both loops. -/
def lineAcc (bl : Blacklaw)
    (fetch : List Char → Except Unit (Option (List LTMatch)))
    (i : Nat) (line : List Char) : List Char × List Issue :=
  (lt_check_sentence bl (fetch (apply_legal_corrections bl line).1)).matchesL.foldl
    (processMatch bl (apply_legal_corrections bl line).1 i)
    ((apply_legal_corrections bl line).2.foldl (legalStep i)
      ((apply_legal_corrections bl line).1, []))

/-- See the docstring above: reference-like and blank lines pass through,
every other line goes through `lineAcc`. -/
def processLine (bl : Blacklaw)
    (fetch : List Char → Except Unit (Option (List LTMatch)))
    (i : Nat) (line : List Char) : List Char × List Issue :=
  if is_reference_like line then (s2l "<p>" ++ line ++ s2l "</p>", [])
  else if (pyStrip line).isEmpty then (s2l "<p></p>", [])
  else
    (s2l "<p>" ++ (lineAcc bl fetch i line).1 ++ s2l "</p>",
     (lineAcc bl fetch i line).2)

/-- Split on `'\n'`, keeping empty segments. -/
def splitNl : List Char → List (List Char)
  | [] => [[]]
  | c :: r =>
    if c = '\n' then [] :: splitNl r
    else
      match splitNl r with
      | [] => [[c]]
      | s :: ss => (c :: s) :: ss

/-- Python `str.splitlines` restricted to `'\n'` separators (the only
separator produced by the repository's own joins): no trailing empty
line. -/
def pySplitLines (t : List Char) : List (List Char) :=
  if t.isEmpty then []
  else
    let segs := splitNl t
    if segs.getLast? = some [] then segs.dropLast else segs

/-- Sequential per-line processing with 1-based numbering. -/
def processLinesGo (bl : Blacklaw)
    (fetch : List Char → Except Unit (Option (List LTMatch)))
    (i : Nat) : List (List Char) → List (List Char) × List Issue
  | [] => ([], [])
  | l :: ls =>
    let r := processLine bl fetch i l
    let rest := processLinesGo bl fetch (i + 1) ls
    (r.1 :: rest.1, r.2 ++ rest.2)

/-- `process_text_line_by_line`: split the text into lines, process each,
and join the `<p>` parts with newlines. -/
def process_text_line_by_line (bl : Blacklaw)
    (fetch : List Char → Except Unit (Option (List LTMatch)))
    (text : List Char) : List Char × List Issue :=
  let r := processLinesGo bl fetch 1 (pySplitLines text)
  (List.intercalate (s2l "\n") r.1, r.2)

/-- The POST branch of the `index` route: the uploaded file is modelled as
its filename and the texts of its paragraphs (`python-docx` parsing is
external).  A `.docx` upload supplies the text (the form field is then
ignored); otherwise the stripped form field is used.  Empty text is
rejected with the error message; otherwise the annotation pipeline runs. -/
def indexPost (bl : Blacklaw)
    (fetch : List Char → Except Unit (Option (List LTMatch)))
    (textField : List Char)
    (file : Option (List Char × List (List Char))) :
    Except (List Char) (List Char × List Issue) :=
  let text_input := pyStrip textField
  let text :=
    match file with
    | some f =>
      if (s2l ".docx").isSuffixOf f.1 then List.intercalate (s2l "\n") f.2
      else text_input
    | none => text_input
  if text.isEmpty then
    Except.error (s2l "Please provide text or upload a .docx file.")
  else Except.ok (process_text_line_by_line bl fetch text)

/-- Plain-text projection of markup output: drop every `<...>` tag.
`inTag` records whether the scanner is inside a tag. -/
def stripTagsGo (inTag : Bool) : List Char → List Char
  | [] => []
  | c :: r =>
    if inTag then (if c = '>' then stripTagsGo false r else stripTagsGo true r)
    else if c = '<' then stripTagsGo true r
    else c :: stripTagsGo false r

/-- Strip all markup tags from an html string. -/
def stripTags (t : List Char) : List Char := stripTagsGo false t

/-- Specification-level characterisation of the suggestion selection for a
grammar match: the stripped value of the first replacement whose normalised
form is a dictionary key (discounting candidates that strip to the empty
string), else the stripped value of the first non-dictionary replacement
(same discount), else the raw value of the first replacement. -/
def specSuggestion (bl : Blacklaw) (reps : List LTRep) : List Char :=
  match reps.find? fun r =>
      blHasKey bl (normalize_key (pyStrip r.value)) && !(pyStrip r.value).isEmpty with
  | some r => pyStrip r.value
  | none =>
    match reps.find? fun r =>
        !blHasKey bl (normalize_key (pyStrip r.value)) && !(pyStrip r.value).isEmpty with
    | some r => pyStrip r.value
    | none => (reps.headD ⟨[]⟩).value

/-! ### Unfolding equations for the substitution scanners -/

theorem wordOpt_none : wordOpt none = false := rfl

theorem wordOpt_some (c : Char) : wordOpt (some c) = isWordChar c := rfl

theorem subWordGo_nil_zero (w new : List Char) (prev : Option Char) :
    subWordGo w new prev 0 [] = if matchAt w prev [] then new else [] := rfl

theorem subWordGo_cons_skip (w new : List Char) (prev : Option Char)
    (c : Char) (r : List Char) (k : Nat) :
    subWordGo w new prev (k + 1) (c :: r) = subWordGo w new (some c) k r := rfl

theorem subWordGo_cons_zero (w new : List Char) (prev : Option Char)
    (c : Char) (r : List Char) :
    subWordGo w new prev 0 (c :: r) =
      if matchAt w prev (c :: r) then
        match w with
        | [] => new ++ c :: subWordGo w new (some c) 0 r
        | _ :: wr => new ++ subWordGo w new (some c) wr.length r
      else c :: subWordGo w new (some c) 0 r := rfl

theorem subCIGo_nil_zero (w new : List Char) :
    subCIGo w new 0 [] = if ciPrefixB w [] then new else [] := rfl

theorem subCIGo_cons_zero (w new : List Char) (c : Char) (r : List Char) :
    subCIGo w new 0 (c :: r) =
      if ciPrefixB w (c :: r) then
        match w with
        | [] => new ++ c :: subCIGo w new 0 r
        | _ :: wr => new ++ subCIGo w new wr.length r
      else c :: subCIGo w new 0 r := rfl

/-- `needle in hay` holds for the empty needle. -/
theorem hasSub_nil (hay : List Char) : hasSub [] hay = true := by
  cases hay <;> simp [hasSub, List.isPrefixOf]

/-- A list is a (case-sensitive, `==`-based) prefix of itself followed by
anything. -/
theorem isPrefixOf_append_self (n t : List Char) : n.isPrefixOf (n ++ t) = true := by
  induction n with
  | nil => simp [List.isPrefixOf]
  | cons c n ih => simp [List.isPrefixOf, ih]

/-- Any explicit occurrence makes `hasSub` true. -/
theorem hasSub_of_eq_append (n hay a b : List Char) (h : hay = a ++ n ++ b) :
    hasSub n hay = true := by
  subst h
  induction a with
  | nil =>
    have hpre := isPrefixOf_append_self n b
    cases hn : n ++ b with
    | nil =>
      rw [List.nil_append, hn]
      rw [hn] at hpre
      simpa [hasSub] using hpre
    | cons c r =>
      rw [List.nil_append, hn]
      rw [hn] at hpre
      simp [hasSub, hpre]
  | cons c a ih =>
    show hasSub n ((c :: a) ++ n ++ b) = true
    rw [List.cons_append, List.cons_append]
    simp only [hasSub, Bool.or_eq_true]
    right
    exact ih

/-! ### C7: reference-like lines pass through unannotated -/

/-- C7: every reference-like input line (blank after stripping, or
containing `http`, `www.`, `doi`, or matching the bracketed-citation or
parenthetical-year pattern — exactly the `is_reference_like` test) yields
zero issues and is emitted verbatim inside its `<p>` element. -/
theorem c7_reference_passthrough (bl : Blacklaw)
    (fetch : List Char → Except Unit (Option (List LTMatch)))
    (i : Nat) (line : List Char) (h : is_reference_like line = true) :
    processLine bl fetch i line = (s2l "<p>" ++ line ++ s2l "</p>", []) := by
  simp [processLine, h]

/-- C7 witness: the line `[12]` is reference-like and passes through. -/
theorem c7_witness :
    is_reference_like (s2l "[12]") = true ∧
      processLine [] (fun _ => Except.error ()) 1 (s2l "[12]") =
        (s2l "<p>[12]</p>", []) :=
  ⟨by decide,
   (c7_reference_passthrough [] (fun _ => Except.error ()) 1 (s2l "[12]")
     (by decide)).trans (by decide)⟩

/-! ### C9: the index route rejects exactly the empty effective text -/

/-- C9 (amended): the POST branch of the route is rejected with the error
message exactly when the effective text is empty — the joined paragraph
text when a `.docx` file is uploaded (the text field is then ignored), and
the stripped text field otherwise.  In particular a non-empty text field
together with an empty `.docx` upload is still rejected. -/
theorem c9_amended (bl : Blacklaw)
    (fetch : List Char → Except Unit (Option (List LTMatch)))
    (textField : List Char) (file : Option (List Char × List (List Char))) :
    indexPost bl fetch textField file =
        Except.error (s2l "Please provide text or upload a .docx file.") ↔
      (match file with
       | some f =>
         if (s2l ".docx").isSuffixOf f.1 then List.intercalate (s2l "\n") f.2 = []
         else pyStrip textField = []
       | none => pyStrip textField = []) := by
  cases file with
  | none =>
    by_cases h : (pyStrip textField).isEmpty <;>
      simp_all [indexPost, List.isEmpty_iff]
  | some f =>
    by_cases hd : (s2l ".docx").isSuffixOf f.1
    · by_cases h : (List.intercalate (s2l "\n") f.2).isEmpty <;>
        simp_all [indexPost, List.isEmpty_iff]
    · by_cases h : (pyStrip textField).isEmpty <;>
        simp_all [indexPost, List.isEmpty_iff]

/-- C9 counterexample: a non-empty text field with an uploaded empty
`.docx` document is rejected, so "for every non-empty input, no error is
surfaced" fails on the code. -/
theorem c9_counterexample :
    pyStrip (s2l "hello") ≠ [] ∧
      indexPost [] (fun _ => Except.error ()) (s2l "hello")
          (some (s2l "a.docx", [[]])) =
        Except.error (s2l "Please provide text or upload a .docx file.") :=
  ⟨by decide, rfl⟩

/-! ### C6: empty replacement requests are applied, not skipped -/

/-- Inside an all-word-character tail, the bare word-boundary pattern of an
empty `old` matches only at the very end. -/
theorem subWordGo_empty_allword (new : List Char) (p : List Char) :
    ∀ (prev : Option Char), (∀ c ∈ p, isWordChar c = true) →
      wordOpt prev = true → subWordGo [] new prev 0 p = p ++ new := by
  induction p with
  | nil =>
    intro prev _ hp
    simp [subWordGo_nil_zero, matchAt, hp, wordOpt_none]
  | cons c r ih =>
    intro prev h hp
    have hc : isWordChar c = true := h c (by simp)
    have hm : matchAt [] prev (c :: r) = false := by
      simp [matchAt, hp, wordOpt_some, hc]
    rw [subWordGo_cons_zero, if_neg (by simp [hm])]
    simp [ih (some c) (fun x hx => h x (by simp [hx])) (by simp [wordOpt_some, hc])]

/-- C6 (amended): a replacement request whose `old` is empty is applied,
not skipped: the substring guard always succeeds and the compiled pattern
degenerates to a bare word boundary, so `new` is inserted at every word
boundary — for an all-word-character paragraph, at its two ends.  (The
model reads the replacement literally, hence the no-backslash
hypothesis.) -/
theorem c6_amended (p new : List Char) (hp : p ≠ [])
    (hw : ∀ c ∈ p, isWordChar c = true) (_hb : new.contains '\\' = false) :
    apply_replacements_to_doc [p] [⟨[], new⟩] = [new ++ p ++ new] := by
  unfold apply_replacements_to_doc
  simp only [List.map_cons, List.map_nil, List.foldl_cons, List.foldl_nil]
  rw [show lowerList [] = [] from rfl, hasSub_nil, if_pos rfl]
  cases p with
  | nil => exact absurd rfl hp
  | cons c r =>
    have hc : isWordChar c = true := hw c (by simp)
    have hm : matchAt [] none (c :: r) = true := by
      simp [matchAt, wordOpt_none, wordOpt_some, hc]
    show (subWordGo [] new none 0 (c :: r) :: []) = _
    rw [subWordGo_cons_zero, if_pos (by simp [hm])]
    rw [subWordGo_empty_allword new r (some c)
      (fun x hx => hw x (by simp [hx])) (by simp [wordOpt, hc])]
    simp

/-- C6 witness: paragraph `ab` with request `old = ""`, `new = "X"`. -/
theorem c6_witness :
    (s2l "ab" ≠ [] ∧ (∀ c ∈ s2l "ab", isWordChar c = true) ∧
        (s2l "X").contains '\\' = false) ∧
      apply_replacements_to_doc [s2l "ab"] [⟨[], s2l "X"⟩] = [s2l "XabX"] :=
  ⟨⟨by decide, by decide, by decide⟩,
   (c6_amended (s2l "ab") (s2l "X") (by decide) (by decide) (by decide)).trans
     (by decide)⟩

/-- C6 counterexample: the request `{old: "", new: "X"}` does not leave the
document unchanged — the claim's "skipped silently, text unchanged" fails
on the code. -/
theorem c6_counterexample :
    apply_replacements_to_doc [s2l "ab"] [⟨[], s2l "X"⟩] = [s2l "XabX"] ∧
      apply_replacements_to_doc [s2l "ab"] [⟨[], s2l "X"⟩] ≠ [s2l "ab"] := by
  constructor <;> decide

/-! ### C10: the invariant of the LanguageTool filter -/

/-- C10: every match surviving `lt_check_sentence` keeps a non-empty
replacement list, and every retained replacement, after stripping and
lowercasing, has length within 3 of the match length, is none of the three
stop words, and is a dictionary key or consists only of `a-z`. -/
theorem c10_filter_invariant (bl : Blacklaw)
    (raw : Except Unit (Option (List LTMatch))) (m : LTMatch)
    (hm : m ∈ (lt_check_sentence bl raw).matchesL) :
    m.replacements ≠ [] ∧
      ∀ rep ∈ m.replacements,
        Nat.dist (lowerList (pyStrip rep.value)).length m.length ≤ 3 ∧
        lowerList (pyStrip rep.value) ∉
          [s2l "motor", s2l "father", s2l "furthermore"] ∧
        (blHasKey bl (lowerList (pyStrip rep.value)) = true ∨
          (lowerList (pyStrip rep.value) ≠ [] ∧
            (lowerList (pyStrip rep.value)).all isLowerAZ = true)) := by
  cases raw with
  | error e => simp [lt_check_sentence] at hm
  | ok o =>
    simp only [lt_check_sentence] at hm
    obtain ⟨m₀, _, hf⟩ := List.mem_filterMap.mp hm
    unfold ltFilterMatch at hf
    by_cases hg : (m₀.replacements.filter (ltRepOk bl m₀.length)).isEmpty
    · simp [hg] at hf
    · rw [if_neg hg] at hf
      obtain rfl : { m₀ with
          replacements := m₀.replacements.filter (ltRepOk bl m₀.length) } = m :=
        Option.some.inj hf
      constructor
      · intro hnil
        rw [show ({ m₀ with
            replacements := m₀.replacements.filter (ltRepOk bl m₀.length) } :
              LTMatch).replacements =
            m₀.replacements.filter (ltRepOk bl m₀.length) from rfl] at hnil
        simp [hnil] at hg
      · intro rep hrep
        have hok : ltRepOk bl m₀.length rep = true :=
          (List.mem_filter.mp hrep).2
        unfold ltRepOk at hok
        replace hok :
            (if 3 < Nat.dist (lowerList (pyStrip rep.value)).length m₀.length then
              false
            else if (lowerList (pyStrip rep.value) == s2l "motor" ||
                lowerList (pyStrip rep.value) == s2l "father" ||
                lowerList (pyStrip rep.value) == s2l "furthermore") = true then
              false
            else if (!blHasKey bl (lowerList (pyStrip rep.value))) = true then
              !(lowerList (pyStrip rep.value)).isEmpty &&
                (lowerList (pyStrip rep.value)).all isLowerAZ
            else true) = true := hok
        split_ifs at hok with h1 h2 h3
        · refine ⟨?_, ?_, ?_⟩
          · show Nat.dist (lowerList (pyStrip rep.value)).length m₀.length ≤ 3
            omega
          · simp only [Bool.or_eq_true, beq_iff_eq] at h2
            push_neg at h2
            simp [h2.1.1, h2.1.2, h2.2]
          · have h4 : (lowerList (pyStrip rep.value)).isEmpty = false := by
              cases hie : (lowerList (pyStrip rep.value)).isEmpty
              · rfl
              · rw [hie] at hok
                exact absurd hok (by simp)
            have h5 : (lowerList (pyStrip rep.value)).all isLowerAZ = true := by
              cases hall : (lowerList (pyStrip rep.value)).all isLowerAZ
              · rw [hall] at hok
                exact absurd hok (by simp)
              · rfl
            exact Or.inr ⟨fun hnil => by simp [hnil] at h4, h5⟩
        · refine ⟨?_, ?_, ?_⟩
          · show Nat.dist (lowerList (pyStrip rep.value)).length m₀.length ≤ 3
            omega
          · simp only [Bool.or_eq_true, beq_iff_eq] at h2
            push_neg at h2
            simp [h2.1.1, h2.1.2, h2.2]
          · have h4 : blHasKey bl (lowerList (pyStrip rep.value)) = true := by
              cases hb : blHasKey bl (lowerList (pyStrip rep.value))
              · rw [hb] at h3
                exact absurd rfl h3
              · rfl
            exact Or.inl h4

/-- C10 witness: a concrete surviving match. -/
theorem c10_witness :
    (⟨0, 4, s2l "m", [⟨s2l "word"⟩]⟩ : LTMatch) ∈
        (lt_check_sentence []
          (Except.ok (some [⟨0, 4, s2l "m", [⟨s2l "word"⟩]⟩]))).matchesL ∧
      ((⟨0, 4, s2l "m", [⟨s2l "word"⟩]⟩ : LTMatch).replacements ≠ [] ∧
        ∀ rep ∈ (⟨0, 4, s2l "m", [⟨s2l "word"⟩]⟩ : LTMatch).replacements,
          Nat.dist (lowerList (pyStrip rep.value)).length 4 ≤ 3 ∧
          lowerList (pyStrip rep.value) ∉
            [s2l "motor", s2l "father", s2l "furthermore"] ∧
          (blHasKey [] (lowerList (pyStrip rep.value)) = true ∨
            (lowerList (pyStrip rep.value) ≠ [] ∧
              (lowerList (pyStrip rep.value)).all isLowerAZ = true))) :=
  ⟨by decide,
   c10_filter_invariant [] (Except.ok (some [⟨0, 4, s2l "m", [⟨s2l "word"⟩]⟩]))
     ⟨0, 4, s2l "m", [⟨s2l "word"⟩]⟩ (by decide)⟩

/-! ### C4: a failing or malformed grammar source degrades to zero matches -/

/-- An exception or a payload without `matches` yields the empty result. -/
theorem lt_check_degraded (bl : Blacklaw)
    (raw : Except Unit (Option (List LTMatch)))
    (h : raw = Except.error () ∨ raw = Except.ok none) :
    lt_check_sentence bl raw = ⟨[]⟩ := by
  rcases h with rfl | rfl <;> rfl

/-- `lineAcc` depends on the fetch function only through the filtered
result of `lt_check_sentence` on the corrected line. -/
theorem lineAcc_congrFetch (bl : Blacklaw) (f g : List Char → Except Unit (Option (List LTMatch)))
    (i : Nat) (line : List Char)
    (hf : lt_check_sentence bl (f (apply_legal_corrections bl line).1) =
      lt_check_sentence bl (g (apply_legal_corrections bl line).1)) :
    lineAcc bl f i line = lineAcc bl g i line := by
  unfold lineAcc
  rw [hf]

theorem processLine_congrFetch (bl : Blacklaw)
    (f g : List Char → Except Unit (Option (List LTMatch))) (i : Nat) (line : List Char)
    (hf : lt_check_sentence bl (f (apply_legal_corrections bl line).1) =
      lt_check_sentence bl (g (apply_legal_corrections bl line).1)) :
    processLine bl f i line = processLine bl g i line := by
  unfold processLine
  rw [lineAcc_congrFetch bl f g i line hf]

theorem processLinesGo_congrFetch (bl : Blacklaw)
    (f g : List Char → Except Unit (Option (List LTMatch)))
    (hfg : ∀ s, lt_check_sentence bl (f s) = lt_check_sentence bl (g s)) :
    ∀ (ls : List (List Char)) (i : Nat),
      processLinesGo bl f i ls = processLinesGo bl g i ls := by
  intro ls
  induction ls with
  | nil => intro i; rfl
  | cons l ls ih =>
    intro i
    unfold processLinesGo
    rw [processLine_congrFetch bl f g i l (hfg _), ih]

/-- The issue list produced by the legal-hit loop is the incoming list plus
one `Legal correction` issue per hit. -/
theorem legalFold_snd (i : Nat) (hits : List (List Char × List Char × List Char)) :
    ∀ (h0 : List Char) (is0 : List Issue),
      (hits.foldl (legalStep i) (h0, is0)).2 =
        is0 ++ hits.map fun hit =>
          ⟨i, hit.1, hit.2.1, s2l "Legal correction", hit.2.2⟩ := by
  induction hits with
  | nil => intro h0 is0; simp
  | cons hit hits ih =>
    intro h0 is0
    rw [List.foldl_cons]
    rw [show legalStep i (h0, is0) hit =
      (subCI hit.1 (legalSpanHtml (htmlEscape hit.1) (htmlEscape hit.2.1)) h0,
       is0 ++ [⟨i, hit.1, hit.2.1, s2l "Legal correction", hit.2.2⟩]) from rfl]
    rw [ih]
    simp

/-- With an empty grammar result every issue of a line is a legal one. -/
theorem processLine_okEmpty_issues (bl : Blacklaw) (i : Nat) (line : List Char) :
    ∀ e ∈ (processLine bl (fun _ => Except.ok (some [])) i line).2,
      e.message = s2l "Legal correction" := by
  intro e he
  unfold processLine at he
  by_cases h1 : is_reference_like line = true
  · rw [if_pos h1] at he
    simp at he
  · by_cases h2 : (pyStrip line).isEmpty = true
    · rw [if_neg h1, if_pos h2] at he
      simp at he
    · rw [if_neg h1, if_neg h2] at he
      replace he : e ∈ (lineAcc bl (fun _ => Except.ok (some [])) i line).2 := he
      unfold lineAcc at he
      rw [show lt_check_sentence bl
          ((fun _ => Except.ok (some ([] : List LTMatch)))
            (apply_legal_corrections bl line).1) = ⟨[]⟩ from rfl] at he
      rw [show (⟨[]⟩ : LTResult).matchesL = [] from rfl, List.foldl_nil] at he
      rw [legalFold_snd] at he
      simp only [List.nil_append] at he
      obtain ⟨hit, -, rfl⟩ := List.mem_map.mp he
      rfl

theorem processLinesGo_okEmpty_issues (bl : Blacklaw) :
    ∀ (ls : List (List Char)) (i : Nat) (e : Issue),
      e ∈ (processLinesGo bl (fun _ => Except.ok (some [])) i ls).2 →
        e.message = s2l "Legal correction" := by
  intro ls
  induction ls with
  | nil => intro i e he; simp [processLinesGo] at he
  | cons l ls ih =>
    intro i e he
    unfold processLinesGo at he
    rcases List.mem_append.mp (by simpa using he) with h | h
    · exact processLine_okEmpty_issues bl i l e h
    · exact ih _ e h

/-- C4: if every grammar-source call raises (`Except.error`) or returns a
payload without a `matches` field (`Except.ok none`), the whole pipeline
behaves exactly as if the grammar source had returned zero matches, and
every issue it still produces is a legal-dictionary annotation.  In
particular processing completes without propagating an error (the model is
a total function). -/
theorem c4_degraded (bl : Blacklaw) (text : List Char)
    (fetch : List Char → Except Unit (Option (List LTMatch)))
    (h : ∀ s, fetch s = Except.error () ∨ fetch s = Except.ok none) :
    process_text_line_by_line bl fetch text =
        process_text_line_by_line bl (fun _ => Except.ok (some [])) text ∧
      ∀ e ∈ (process_text_line_by_line bl fetch text).2,
        e.message = s2l "Legal correction" := by
  have hfg : ∀ s, lt_check_sentence bl (fetch s) =
      lt_check_sentence bl ((fun _ => Except.ok (some [])) s) := by
    intro s
    rw [lt_check_degraded bl (fetch s) (h s)]
    rfl
  have h1 : process_text_line_by_line bl fetch text =
      process_text_line_by_line bl (fun _ => Except.ok (some [])) text := by
    unfold process_text_line_by_line
    rw [processLinesGo_congrFetch bl _ _ hfg]
  refine ⟨h1, ?_⟩
  intro e he
  rw [h1] at he
  have he' : e ∈ (processLinesGo bl (fun _ => Except.ok (some [])) 1
      (pySplitLines text)).2 := he
  exact processLinesGo_okEmpty_issues bl _ 1 e he'

/-- C4 witness: an erroring fetch on a text with one legal hit. -/
theorem c4_witness :
    process_text_line_by_line [] (fun _ => Except.error ()) (s2l "a prima facia b") =
        process_text_line_by_line [] (fun _ => Except.ok (some []))
          (s2l "a prima facia b") ∧
      ∀ e ∈ (process_text_line_by_line [] (fun _ => Except.error ())
          (s2l "a prima facia b")).2,
        e.message = s2l "Legal correction" :=
  c4_degraded [] (s2l "a prima facia b") (fun _ => Except.error ())
    (fun _ => Or.inl rfl)

/-! ### C1: what stripping the markup of the rendered line recovers -/

/-- A substitution whose pattern occurs nowhere (case-insensitively) is the
identity. -/
theorem subCI_id (w n : List Char) :
    ∀ t, ciSearch w t = false → subCI w n t = t := by
  intro t
  unfold subCI
  induction t with
  | nil =>
    intro h
    rw [subCIGo_nil_zero, if_neg (by simp [show ciPrefixB w [] = false from by
      simpa [ciSearch] using h])]
  | cons c r ih =>
    intro h
    have h1 : ciPrefixB w (c :: r) = false ∧ ciSearch w r = false := by
      simpa [ciSearch, Bool.or_eq_false_iff] using h
    rw [subCIGo_cons_zero, if_neg (by simp [h1.1]), ih h1.2]

/-- When no legal-hit phrase still occurs in the running html line, the
legal loop leaves the html unchanged. -/
theorem legalFold_fst_id (i : Nat) (c : List Char)
    (hits : List (List Char × List Char × List Char)) :
    ∀ is0, (∀ hit ∈ hits, ciSearch hit.1 c = false) →
      (hits.foldl (legalStep i) (c, is0)).1 = c := by
  induction hits with
  | nil => intro is0 _; rfl
  | cons hit hits ih =>
    intro is0 h
    rw [List.foldl_cons]
    have hstep : legalStep i (c, is0) hit =
        (c, is0 ++ [⟨i, hit.1, hit.2.1, s2l "Legal correction", hit.2.2⟩]) := by
      unfold legalStep
      rw [subCI_id _ _ _ (h hit (by simp))]
    rw [hstep]
    exact ih _ fun x hx => h x (by simp [hx])

theorem stripTagsGo_false_cons (c : Char) (r : List Char) :
    stripTagsGo false (c :: r) =
      if c = '<' then stripTagsGo true r else c :: stripTagsGo false r := rfl

/-- The plain-text projection passes tag-free text through. -/
theorem stripTagsGo_append (x : List Char) :
    ∀ t, x.contains '<' = false →
      stripTagsGo false (x ++ t) = x ++ stripTagsGo false t := by
  induction x with
  | nil => intro t _; rfl
  | cons c r ih =>
    intro t hx
    have hne : ¬c = '<' := by
      intro h
      subst h
      simp [List.contains_cons] at hx
    have hr : r.contains '<' = false := by
      by_cases h : r.contains '<' = true
      · exfalso
        have hmem : '<' ∈ r := by simpa using h
        have hx' : ¬('<' = c) ∧ '<' ∉ r := by simpa [List.contains_cons] using hx
        exact hx'.2 hmem
      · simpa using h
    show stripTagsGo false (c :: (r ++ t)) = _
    rw [stripTagsGo_false_cons, if_neg hne, ih t hr]
    rfl

/-- Stripping the `<p>` wrapper of tag-free content recovers the content. -/
theorem stripTags_wrapP (x : List Char) (hx : x.contains '<' = false) :
    stripTags (s2l "<p>" ++ x ++ s2l "</p>") = x := by
  show stripTagsGo false (s2l "<p>" ++ x ++ s2l "</p>") = x
  have h1 : s2l "<p>" ++ x ++ s2l "</p>" =
      '<' :: 'p' :: '>' :: (x ++ s2l "</p>") := rfl
  rw [h1]
  show stripTagsGo false (x ++ s2l "</p>") = x
  rw [stripTagsGo_append x _ hx,
    show stripTagsGo false (s2l "</p>") = [] from rfl]

  simp

/-- A non-reference-like line is not blank after stripping. -/
theorem not_blank_of_not_ref (line : List Char)
    (h1 : is_reference_like line = false) : (pyStrip line).isEmpty = false := by
  unfold is_reference_like at h1
  replace h1 : ((pyStrip line).isEmpty || hasSub (s2l "http") (pyStrip line) ||
      hasSub (s2l "www.") (pyStrip line) ||
      hasSub (s2l "doi") (lowerList (pyStrip line)) ||
      bracketCitation (pyStrip line) || parenYear (pyStrip line)) = false := h1
  cases hse : (pyStrip line).isEmpty
  · rfl
  · rw [hse] at h1
    simp at h1

/-- C1 (amended): for a non-reference-like line on which the grammar source
reports no matches and whose legal corrections leave no residual
case-insensitive occurrence of a hit's wrong phrase, stripping the markup
of the rendered line recovers the legally corrected line — the output of
`apply_legal_corrections` — not the original line (they differ exactly when
a legal fix applied). -/
theorem c1_amended (bl : Blacklaw) (i : Nat) (line : List Char)
    (h1 : is_reference_like line = false)
    (h3 : ∀ hit ∈ (apply_legal_corrections bl line).2,
        ciSearch hit.1 (apply_legal_corrections bl line).1 = false)
    (h4 : (apply_legal_corrections bl line).1.contains '<' = false) :
    stripTags (processLine bl (fun _ => Except.error ()) i line).1 =
      (apply_legal_corrections bl line).1 := by
  unfold processLine
  rw [if_neg (by simp [h1]), if_neg (by simp [not_blank_of_not_ref line h1])]
  have hacc : (lineAcc bl (fun _ => Except.error ()) i line).1 =
      (apply_legal_corrections bl line).1 := by
    unfold lineAcc
    rw [show lt_check_sentence bl
        ((fun _ => (Except.error () : Except Unit (Option (List LTMatch))))
          (apply_legal_corrections bl line).1) = ⟨[]⟩ from rfl]
    rw [show (⟨[]⟩ : LTResult).matchesL = [] from rfl, List.foldl_nil]
    exact legalFold_fst_id i (apply_legal_corrections bl line).1
      (apply_legal_corrections bl line).2 [] h3
  show stripTags (s2l "<p>" ++ (lineAcc bl (fun _ => Except.error ()) i line).1 ++
      s2l "</p>") = _
  rw [hacc]
  exact stripTags_wrapP _ h4

/-- C1 witness: the line `prima facia` (with an empty dictionary and an
erroring grammar source) strips back to `prima facie`. -/
theorem c1_witness :
    is_reference_like (s2l "prima facia") = false ∧
      (∀ hit ∈ (apply_legal_corrections [] (s2l "prima facia")).2,
        ciSearch hit.1 (apply_legal_corrections [] (s2l "prima facia")).1 = false) ∧
      (apply_legal_corrections [] (s2l "prima facia")).1.contains '<' = false ∧
      stripTags (processLine [] (fun _ => Except.error ()) 1 (s2l "prima facia")).1 =
        s2l "prima facie" :=
  ⟨by decide, by decide, by decide,
   (c1_amended [] 1 (s2l "prima facia") (by decide) (by decide)
     (by decide)).trans (by decide)⟩

/-- C1 counterexample: for the non-reference-like line `prima facia` the
stripped inline output is `prima facie`, not the original line — the
original claim's round trip to the original text fails, and the legal span
(when emitted at all) carries the suggestion, not the original text. -/
theorem c1_counterexample :
    stripTags (process_text_line_by_line [] (fun _ => Except.error ())
        (s2l "prima facia")).1 = s2l "prima facie" ∧
      stripTags (process_text_line_by_line [] (fun _ => Except.error ())
        (s2l "prima facia")).1 ≠ s2l "prima facia" := by
  constructor <;> decide

/-! ### C8: which interpolated text is escaped -/

/-- The recorded-hit list of the legal fold only grows. -/
theorem legalFixFold_snd_mono (bl : Blacklaw) :
    ∀ (fixes : List (List Char × List Char)) (c : List Char)
      (a : List (List Char × List Char × List Char)),
      ∃ tail, (fixes.foldl (legalFixStep bl) (c, a)).2 = a ++ tail := by
  intro fixes
  induction fixes with
  | nil => intro c a; exact ⟨[], by simp⟩
  | cons p fixes ih =>
    intro c a
    rw [List.foldl_cons]
    by_cases hs : searchWordCI p.1 c = true
    · have hstep : legalFixStep bl (c, a) p =
          (subWordCI p.1 p.2 c,
           a ++ [(p.1, p.2, blGet bl (normalize_key p.2)
             (s2l "(Meaning not found in Black’s Law Dictionary)"))]) := by
        unfold legalFixStep
        rw [if_pos hs]
      rw [hstep]
      obtain ⟨tail, ht⟩ := ih (subWordCI p.1 p.2 c)
        (a ++ [(p.1, p.2, blGet bl (normalize_key p.2)
          (s2l "(Meaning not found in Black’s Law Dictionary)"))])
      exact ⟨(p.1, p.2, blGet bl (normalize_key p.2)
        (s2l "(Meaning not found in Black’s Law Dictionary)")) :: tail,
        by rw [ht]; simp⟩
    · have hstep : legalFixStep bl (c, a) p = (c, a) := by
        unfold legalFixStep
        rw [if_neg hs]
      rw [hstep]
      exact ih c a

/-- If the legal fold records no hit, the sentence is unchanged. -/
theorem legalFixFold_snd_eq_fst (bl : Blacklaw) :
    ∀ (fixes : List (List Char × List Char)) (c : List Char)
      (a : List (List Char × List Char × List Char)),
      (fixes.foldl (legalFixStep bl) (c, a)).2 = a →
      (fixes.foldl (legalFixStep bl) (c, a)).1 = c := by
  intro fixes
  induction fixes with
  | nil => intro c a _; rfl
  | cons p fixes ih =>
    intro c a h
    rw [List.foldl_cons] at h ⊢
    by_cases hs : searchWordCI p.1 c = true
    · exfalso
      have hstep : legalFixStep bl (c, a) p =
          (subWordCI p.1 p.2 c,
           a ++ [(p.1, p.2, blGet bl (normalize_key p.2)
             (s2l "(Meaning not found in Black’s Law Dictionary)"))]) := by
        unfold legalFixStep
        rw [if_pos hs]
      rw [hstep] at h
      obtain ⟨tail, ht⟩ := legalFixFold_snd_mono bl fixes (subWordCI p.1 p.2 c)
        (a ++ [(p.1, p.2, blGet bl (normalize_key p.2)
          (s2l "(Meaning not found in Black’s Law Dictionary)"))])
      rw [ht] at h
      have hlen := congrArg List.length h
      simp at hlen
    · have hstep : legalFixStep bl (c, a) p = (c, a) := by
        unfold legalFixStep
        rw [if_neg hs]
      rw [hstep] at h ⊢
      exact ih c a h

/-- No recorded legal hit means an unchanged corrected line. -/
theorem apply_legal_nil_corrected (bl : Blacklaw) (line : List Char)
    (h : (apply_legal_corrections bl line).2 = []) :
    (apply_legal_corrections bl line).1 = line :=
  legalFixFold_snd_eq_fst bl LEGAL_FIX line [] h

/-- C8 (amended): only the wrong/suggestion texts interpolated into
annotation spans are HTML-escaped; the surrounding line text is emitted
raw.  A non-reference-like line with no legal hit and an erroring grammar
source is rendered as `<p>` + line + `</p>` verbatim, markup included. -/
theorem c8_amended (bl : Blacklaw) (i : Nat) (line : List Char)
    (h1 : is_reference_like line = false)
    (h2 : (apply_legal_corrections bl line).2 = []) :
    processLine bl (fun _ => Except.error ()) i line =
      (s2l "<p>" ++ line ++ s2l "</p>", []) := by
  have hc := apply_legal_nil_corrected bl line h2
  unfold processLine
  rw [if_neg (by simp [h1]), if_neg (by simp [not_blank_of_not_ref line h1])]
  unfold lineAcc
  rw [h2, List.foldl_nil]
  rw [show lt_check_sentence bl
      ((fun _ => (Except.error () : Except Unit (Option (List LTMatch))))
        (apply_legal_corrections bl line).1) = ⟨[]⟩ from rfl]
  rw [show (⟨[]⟩ : LTResult).matchesL = [] from rfl, List.foldl_nil]
  rw [hc]

/-- C8 witness: an ordinary line containing markup is emitted raw. -/
theorem c8_witness :
    is_reference_like (s2l "<script>alert(1)</script>") = false ∧
      (apply_legal_corrections [] (s2l "<script>alert(1)</script>")).2 = [] ∧
      processLine [] (fun _ => Except.error ()) 1
          (s2l "<script>alert(1)</script>") =
        (s2l "<p><script>alert(1)</script></p>", []) :=
  ⟨by decide, by decide,
   (c8_amended [] 1 (s2l "<script>alert(1)</script>") (by decide)
     (by decide)).trans (by decide)⟩

/-- C8 counterexample: the unannotated line text is interpolated without
escaping, so input markup reaches the HTML output verbatim — the claim
that all interpolated literal text is escaped fails on the code. -/
theorem c8_counterexample :
    (process_text_line_by_line [] (fun _ => Except.error ())
        (s2l "<b>x</b>")).1 = s2l "<p><b>x</b></p>" ∧
      s2l "<p><b>x</b></p>" ≠
        s2l "<p>" ++ htmlEscape (s2l "<b>x</b>") ++ s2l "</p>" := by
  constructor <;> decide

/-! ### C3: where an issue's suggestion comes from -/

/-- Every hit recorded by the legal fold comes from the fix table. -/
theorem legalFixFold_mem (bl : Blacklaw) :
    ∀ (fixes : List (List Char × List Char)) (c : List Char)
      (a : List (List Char × List Char × List Char))
      (x : List Char × List Char × List Char),
      x ∈ (fixes.foldl (legalFixStep bl) (c, a)).2 →
      x ∈ a ∨ ∃ p ∈ fixes, x.1 = p.1 ∧ x.2.1 = p.2 := by
  intro fixes
  induction fixes with
  | nil => intro c a x hx; exact Or.inl hx
  | cons p fixes ih =>
    intro c a x hx
    rw [List.foldl_cons] at hx
    by_cases hs : searchWordCI p.1 c = true
    · have hstep : legalFixStep bl (c, a) p =
          (subWordCI p.1 p.2 c,
           a ++ [(p.1, p.2, blGet bl (normalize_key p.2)
             (s2l "(Meaning not found in Black’s Law Dictionary)"))]) := by
        unfold legalFixStep
        rw [if_pos hs]
      rw [hstep] at hx
      rcases ih _ _ x hx with hmem | ⟨q, hq, hq1, hq2⟩
      · rcases List.mem_append.mp hmem with h | h
        · exact Or.inl h
      
        · simp only [List.mem_singleton] at h
          exact Or.inr ⟨p, List.mem_cons_self p fixes, by rw [h], by rw [h]⟩
      · exact Or.inr ⟨q, List.mem_cons_of_mem _ hq, hq1, hq2⟩
    · have hstep : legalFixStep bl (c, a) p = (c, a) := by
        unfold legalFixStep
        rw [if_neg hs]
      rw [hstep] at hx
      rcases ih c a x hx with h | ⟨q, hq, h1, h2⟩
      · exact Or.inl h
      · exact Or.inr ⟨q, List.mem_cons_of_mem _ hq, h1, h2⟩

theorem apply_legal_mem (bl : Blacklaw) (line : List Char) :
    ∀ x ∈ (apply_legal_corrections bl line).2,
      ∃ p ∈ LEGAL_FIX, x.1 = p.1 ∧ x.2.1 = p.2 := by
  intro x hx
  rcases legalFixFold_mem bl LEGAL_FIX line [] x hx with h | h
  · simp at h
  · exact h

/-- Every issue appended by the grammar loop flags a slice of the
corrected line. -/
theorem processMatchFold_mem (bl : Blacklaw) (corrected : List Char) (i : Nat) :
    ∀ (ms : List LTMatch) (acc : List Char × List Issue) (e : Issue),
      e ∈ (ms.foldl (processMatch bl corrected i) acc).2 →
      e ∈ acc.2 ∨ ∃ m ∈ ms,
        e.wrong = (corrected.drop m.offset).take m.length := by
  intro ms
  induction ms with
  | nil => intro acc e he; exact Or.inl he
  | cons m ms ih =>
    intro acc e he
    rw [List.foldl_cons] at he
    cases hr : m.replacements with
    | nil =>
      have hstep : processMatch bl corrected i acc m = acc := by
        unfold processMatch
        rw [hr]
      rw [hstep] at he
      rcases ih acc e he with h | ⟨m', hm', hw⟩
      · exact Or.inl h
      · exact Or.inr ⟨m', List.mem_cons_of_mem _ hm', hw⟩
    | cons r0 rest =>
      simp only [processMatch, hr] at he
      rcases ih _ e he with h | ⟨m', hm', hw⟩
      · rcases List.mem_append.mp h with h' | h'
        · exact Or.inl h'
        · simp only [List.mem_singleton] at h'
          exact Or.inr ⟨m, List.mem_cons_self m ms, by rw [h']⟩
      · exact Or.inr ⟨m', List.mem_cons_of_mem _ hm', hw⟩

/-- A slice of a list occurs in it as a substring. -/
theorem hasSub_slice (l : List Char) (a b : Nat) :
    hasSub ((l.drop a).take b) l = true := by
  apply hasSub_of_eq_append _ _ (l.take a) ((l.drop a).drop b)
  rw [List.append_assoc, List.take_append_drop, List.take_append_drop]

/-- Any issue of a line comes from the legal table (with its fixed
correction as suggestion) or flags text occurring in the corrected line. -/
theorem processLine_issue_origin (bl : Blacklaw)
    (fetch : List Char → Except Unit (Option (List LTMatch)))
    (i : Nat) (line : List Char) (e : Issue)
    (he : e ∈ (processLine bl fetch i line).2) :
    (∃ p ∈ LEGAL_FIX, e.wrong = p.1 ∧ e.suggestion = p.2) ∨
      hasSub e.wrong (apply_legal_corrections bl line).1 = true := by
  unfold processLine at he
  by_cases h1 : is_reference_like line = true
  · rw [if_pos h1] at he
    simp at he
  · by_cases h2 : (pyStrip line).isEmpty = true
    · rw [if_neg h1, if_pos h2] at he
      simp at he
    · rw [if_neg h1, if_neg h2] at he
      replace he : e ∈ (lineAcc bl fetch i line).2 := he
      unfold lineAcc at he
      rcases processMatchFold_mem bl (apply_legal_corrections bl line).1 i _ _ e he
        with h | ⟨m, -, hw⟩
      · rw [legalFold_snd] at h
        simp only [List.nil_append] at h
        obtain ⟨hit, hmem, rfl⟩ := List.mem_map.mp h
        obtain ⟨p, hp, hp1, hp2⟩ := apply_legal_mem bl line hit hmem
        exact Or.inl ⟨p, hp, hp1, hp2⟩
      · rw [hw]
        exact Or.inr (hasSub_slice _ _ _)

/-- C3 (amended): legal fixes are applied before the grammar source is
consulted, so whenever the literal `suo moto` no longer occurs in the
corrected line, every issue reported for that text is the legal one and its
suggestion is the table's `suo motu`.  (When a non-whole-word residue of
the phrase survives legal correction, the grammar source can additionally
flag the same text with its own suggestion — see the counterexample.) -/
theorem c3_amended (bl : Blacklaw)
    (fetch : List Char → Except Unit (Option (List LTMatch)))
    (i : Nat) (line : List Char) (e : Issue)
    (he : e ∈ (processLine bl fetch i line).2)
    (hw : e.wrong = s2l "suo moto")
    (hni : hasSub (s2l "suo moto") (apply_legal_corrections bl line).1 = false) :
    e.suggestion = s2l "suo motu" := by
  rcases processLine_issue_origin bl fetch i line e he with ⟨p, hp, h1, h2⟩ | hsub
  · rw [hw] at h1
    simp only [LEGAL_FIX, List.mem_cons, List.mem_singleton] at hp
    rcases hp with rfl | rfl | rfl | rfl | rfl | rfl | hnil
    · exact absurd h1 (by decide)
    · exact absurd h1 (by decide)
    · exact absurd h1 (by decide)
    · exact absurd h1 (by decide)
    · exact absurd h1 (by decide)
    · exact h2
    · simp at hnil
  · rw [hw] at hsub
    rw [hsub] at hni
    exact absurd hni (by simp)

/-- C3 witness: in `file a suo moto case` the phrase is corrected away, and
the issue reported for it carries the legal suggestion. -/
theorem c3_witness :
    (⟨1, s2l "suo moto", s2l "suo motu", s2l "Legal correction",
        s2l "(Meaning not found in Black’s Law Dictionary)"⟩ : Issue) ∈
        (processLine [] (fun _ => Except.error ()) 1
          (s2l "file a suo moto case")).2 ∧
      hasSub (s2l "suo moto")
        (apply_legal_corrections [] (s2l "file a suo moto case")).1 = false ∧
      (⟨1, s2l "suo moto", s2l "suo motu", s2l "Legal correction",
        s2l "(Meaning not found in Black’s Law Dictionary)"⟩ : Issue).suggestion =
        s2l "suo motu" :=
  ⟨by decide, by decide,
   c3_amended [] (fun _ => Except.error ()) 1 (s2l "file a suo moto case")
     ⟨1, s2l "suo moto", s2l "suo motu", s2l "Legal correction",
       s2l "(Meaning not found in Black’s Law Dictionary)"⟩
     (by decide) (by decide) (by decide)⟩

/-- C3 counterexample: in `suo moto suo motos` the legal fix leaves a
non-whole-word residue `suo moto` (inside `suo motos`) in the corrected
line; a grammar match flagging exactly that residue produces a second issue
for the same literal text whose suggestion is the grammar source's
(`suomoto`), not the legal dictionary's — refuting "never the grammar
source's suggestion". -/
theorem c3_counterexample :
    ((process_text_line_by_line []
          (fun _ => Except.ok (some [⟨9, 8, s2l "msg", [⟨s2l "suomoto"⟩]⟩]))
          (s2l "suo moto suo motos")).2).map
        (fun e => (e.wrong, e.suggestion)) =
      [(s2l "suo moto", s2l "suo motu"), (s2l "suo moto", s2l "suomoto")] ∧
      s2l "suomoto" ≠ s2l "suo motu" := by
  constructor <;> decide

/-! ### C5: which replacement candidate becomes the suggestion -/

theorem pyTruthy_none : pyTruthy none = false := rfl

theorem pyTruthy_some (s : List Char) : pyTruthy (some s) = !s.isEmpty := rfl

/-- The combined `pickSugs` fold is the pair of the two independent
folds. -/
theorem pickSugs_go (bl : Blacklaw) :
    ∀ (reps : List LTRep) (b g : Option (List Char)),
      List.foldl (fun acc rep =>
        (if blHasKey bl (normalize_key (pyStrip rep.value)) && !pyTruthy acc.1 then
            some (pyStrip rep.value) else acc.1,
         if !blHasKey bl (normalize_key (pyStrip rep.value)) && !pyTruthy acc.2 then
            some (pyStrip rep.value) else acc.2)) (b, g) reps =
        (reps.foldl (pickB bl) b, reps.foldl (pickG bl) g) := by
  intro reps
  induction reps with
  | nil => intro b g; rfl
  | cons r reps ih =>
    intro b g
    rw [List.foldl_cons, List.foldl_cons, List.foldl_cons]
    exact ih (pickB bl b r) (pickG bl g r)

theorem pickSugs_eq (bl : Blacklaw) (reps : List LTRep) :
    pickSugs bl reps =
      (reps.foldl (pickB bl) none, reps.foldl (pickG bl) none) := by
  unfold pickSugs
  exact pickSugs_go bl reps none none

/-- A truthy accumulator is never overwritten. -/
theorem foldGen_truthy (φ : LTRep → Bool) :
    ∀ (reps : List LTRep) (b : Option (List Char)),
      pyTruthy b = true → reps.foldl (pickGen φ) b = b := by
  intro reps
  induction reps with
  | nil => intro b _; rfl
  | cons r reps ih =>
    intro b hb
    rw [List.foldl_cons]
    have hstep : pickGen φ b r = b := by
      unfold pickGen
      rw [hb]
      simp
    rw [hstep]
    exact ih b hb

/-- A falsy accumulator stays falsy over a candidate that is not
(`φ` and non-empty after stripping). -/
theorem pickGen_falsy (φ : LTRep → Bool) (b : Option (List Char)) (r0 : LTRep)
    (hb : pyTruthy b = false)
    (hp : ¬(φ r0 && !(pyStrip r0.value).isEmpty) = true) :
    pyTruthy (pickGen φ b r0) = false := by
  unfold pickGen
  cases hd : φ r0 with
  | false => simp [hd, hb]
  | true =>
    have hie : (pyStrip r0.value).isEmpty = true := by
      cases hx : (pyStrip r0.value).isEmpty
      · exact absurd (by rw [hd, hx]; rfl) hp
      · rfl
    simp [hd, hb, pyTruthy_some, hie]

/-- The fold lands on the first `φ` candidate with non-empty strip. -/
theorem foldGen_some (φ : LTRep → Bool) :
    ∀ (reps : List LTRep) (b : Option (List Char)) (r : LTRep),
      pyTruthy b = false →
      reps.find? (fun r' => φ r' && !(pyStrip r'.value).isEmpty) = some r →
      reps.foldl (pickGen φ) b = some (pyStrip r.value) := by
  intro reps
  induction reps with
  | nil => intro b r _ hf; simp at hf
  | cons r0 reps ih =>
    intro b r hb hf
    rw [List.foldl_cons]
    by_cases hp : (φ r0 && !(pyStrip r0.value).isEmpty) = true
    · rw [List.find?_cons_of_pos (p := fun r' => φ r' && !(pyStrip r'.value).isEmpty)
        _ hp] at hf
      obtain rfl : r0 = r := Option.some.inj hf
      have hp' : φ r0 = true ∧ (!(pyStrip r0.value).isEmpty) = true := by
        simpa [Bool.and_eq_true] using hp
      have hstep : pickGen φ b r0 = some (pyStrip r0.value) := by
        unfold pickGen
        rw [hp'.1, hb]
        simp
      rw [hstep]
      apply foldGen_truthy
      rw [pyTruthy_some]
      exact hp'.2
    · rw [List.find?_cons_of_neg (p := fun r' => φ r' && !(pyStrip r'.value).isEmpty)
        _ hp] at hf
      exact ih _ r (pickGen_falsy φ b r0 hb hp) hf

/-- Without any `φ` candidate of non-empty strip the fold stays falsy. -/
theorem foldGen_none (φ : LTRep → Bool) :
    ∀ (reps : List LTRep) (b : Option (List Char)),
      pyTruthy b = false →
      reps.find? (fun r' => φ r' && !(pyStrip r'.value).isEmpty) = none →
      pyTruthy (reps.foldl (pickGen φ) b) = false := by
  intro reps
  induction reps with
  | nil => intro b hb _; simpa using hb
  | cons r0 reps ih =>
    intro b hb hf
    by_cases hp : (φ r0 && !(pyStrip r0.value).isEmpty) = true
    · rw [List.find?_cons_of_pos (p := fun r' => φ r' && !(pyStrip r'.value).isEmpty)
        _ hp] at hf
      exact absurd hf (by simp)
    · rw [List.find?_cons_of_neg (p := fun r' => φ r' && !(pyStrip r'.value).isEmpty)
        _ hp] at hf
      rw [List.foldl_cons]
      exact ih _ (pickGen_falsy φ b r0 hb hp) hf

theorem primaryOf_eq_folds (bl : Blacklaw) (r0 : LTRep) (rest : List LTRep) :
    primaryOf bl r0 rest =
      (if pyTruthy ((r0 :: rest).foldl (pickB bl) none) then
        ((r0 :: rest).foldl (pickB bl) none).getD []
      else if pyTruthy ((r0 :: rest).foldl (pickG bl) none) then
        ((r0 :: rest).foldl (pickG bl) none).getD []
      else r0.value) := by
  unfold primaryOf
  rw [pickSugs_eq]

/-- The implemented selection loop agrees with the specification-level
selection: first dictionary-backed candidate (stripped), else first
non-dictionary candidate (stripped), else the first raw value —
candidates stripping to the empty string being passed over. -/
theorem primaryOf_eq_spec (bl : Blacklaw) (r0 : LTRep) (rest : List LTRep) :
    primaryOf bl r0 rest = specSuggestion bl (r0 :: rest) := by
  rw [primaryOf_eq_folds]
  unfold specSuggestion
  cases hf : (r0 :: rest).find? (fun r =>
      blHasKey bl (normalize_key (pyStrip r.value)) && !(pyStrip r.value).isEmpty) with
  | some r =>
    have hfold : (r0 :: rest).foldl (pickB bl) none = some (pyStrip r.value) :=
      foldGen_some (fun r' => blHasKey bl (normalize_key (pyStrip r'.value)))
        (r0 :: rest) none r rfl hf
    have hne := List.find?_some hf
    have hne2 : (!(pyStrip r.value).isEmpty) = true := by
      simp only [Bool.and_eq_true] at hne
      exact hne.2
    rw [hfold]
    simp [pyTruthy_some, hne2]
  | none =>
    have hb : pyTruthy ((r0 :: rest).foldl (pickB bl) none) = false :=
      foldGen_none (fun r' => blHasKey bl (normalize_key (pyStrip r'.value)))
        (r0 :: rest) none rfl hf
    rw [hb]
    cases hg : (r0 :: rest).find? (fun r =>
        !blHasKey bl (normalize_key (pyStrip r.value)) && !(pyStrip r.value).isEmpty) with
    | some r =>
      have hgf : (r0 :: rest).foldl (pickG bl) none = some (pyStrip r.value) :=
        foldGen_some (fun r' => !blHasKey bl (normalize_key (pyStrip r'.value)))
          (r0 :: rest) none r rfl hg
      have hne := List.find?_some hg
      have hne2 : (!(pyStrip r.value).isEmpty) = true := by
        simp only [Bool.and_eq_true] at hne
        exact hne.2
      rw [hgf]
      simp [pyTruthy_some, hne2]
    | none =>
      have hgf : pyTruthy ((r0 :: rest).foldl (pickG bl) none) = false :=
        foldGen_none (fun r' => !blHasKey bl (normalize_key (pyStrip r'.value)))
          (r0 :: rest) none rfl hg
      rw [hgf]
      simp

/-- C5 (amended): the grammar loop attaches to each match (with non-empty
replacements) exactly one issue, whose suggestion is the
specification-level selection characterised by `specSuggestion` — i.e. the
stripped first dictionary-backed candidate when one exists, only otherwise
the (stripped) first candidate. -/
theorem c5_amended (bl : Blacklaw) (corrected : List Char) (i : Nat)
    (html : List Char) (iss : List Issue) (m : LTMatch)
    (hm : m.replacements ≠ []) :
    ∃ e, (processMatch bl corrected i (html, iss) m).2 = iss ++ [e] ∧
      e.suggestion = specSuggestion bl m.replacements := by
  cases hr : m.replacements with
  | nil => exact absurd hr hm
  | cons r0 rest =>
    refine ⟨⟨i, (corrected.drop m.offset).take m.length, primaryOf bl r0 rest,
      m.message, blGet bl (normalize_key (primaryOf bl r0 rest))
        (s2l "(No meaning found)")⟩, ?_, ?_⟩
    · simp only [processMatch, hr]
    · exact primaryOf_eq_spec bl r0 rest

/-- C5 witness: a single candidate ` ab ` whose normalised form is in the
dictionary; the attached suggestion is its stripped value. -/
theorem c5_witness :
    (⟨0, 2, s2l "g", [⟨s2l " ab "⟩]⟩ : LTMatch).replacements ≠ [] ∧
      ∃ e, (processMatch [(s2l "ab", s2l "m")] (s2l "xy") 1 (s2l "xy", [])
          ⟨0, 2, s2l "g", [⟨s2l " ab "⟩]⟩).2 = [] ++ [e] ∧
        e.suggestion = specSuggestion [(s2l "ab", s2l "m")] [⟨s2l " ab "⟩] :=
  ⟨by decide,
   c5_amended [(s2l "ab", s2l "m")] (s2l "xy") 1 (s2l "xy") []
     ⟨0, 2, s2l "g", [⟨s2l " ab "⟩]⟩ (by decide)⟩

/-- C5 counterexample: with replacements `["other", "suo motu"]` and
`suo motu` a dictionary key, the attached suggestion is `suo motu`, not the
first candidate `other` — the claim "the suggestion is the first
replacement candidate" fails on the code. -/
theorem c5_counterexample :
    ((process_text_line_by_line [(s2l "suo motu", s2l "m")]
          (fun _ => Except.ok (some [⟨0, 5, s2l "ms",
            [⟨s2l "other"⟩, ⟨s2l "suo motu"⟩]⟩]))
          (s2l "abcde")).2).map (fun e => e.suggestion) = [s2l "suo motu"] ∧
      s2l "suo motu" ≠ s2l "other" := by
  constructor <;> decide

/-! ### C2: the Replacement Applicator replaces every occurrence -/

/-- `re.IGNORECASE` cannot match the word character `m` against a non-word
character. -/
theorem ciEq_m (c : Char) (hc : isWordChar c = false) : ciEq 'm' c = false := by
  have hAZ : ('A' ≤ c && c ≤ 'Z') = false := by
    cases h : ('A' ≤ c && c ≤ 'Z')
    · rfl
    · exfalso
      unfold isWordChar at hc
      rw [h] at hc
      simp at hc
  have h1 : pyLowerChar 'm' = 'm' := by decide
  have h2 : pyLowerChar c = c := by
    unfold pyLowerChar
    rw [hAZ]
    simp
  unfold ciEq
  rw [h1, h2]
  cases heq : ('m' == c)
  · rfl
  · exfalso
    have hcm : 'm' = c := by simpa using heq
    rw [← hcm] at hc
    exact absurd hc (by decide)

theorem matchAt_cons (a : Char) (w : List Char) (prev : Option Char)
    (t : List Char) :
    matchAt (a :: w) prev t =
      ((wordOpt prev != wordOpt t.head?) && ciPrefixB (a :: w) t &&
        (wordOpt ((t.take (a :: w).length).getLast?) !=
          wordOpt ((t.drop (a :: w).length).head?))) := rfl

/-- The phrase `mens reaa` cannot start matching at a non-word
character. -/
theorem matchAt_mr_nonword (prev : Option Char) (c : Char) (r : List Char)
    (hc : isWordChar c = false) :
    matchAt (s2l "mens reaa") prev (c :: r) = false := by
  rw [show (s2l "mens reaa") = 'm' :: s2l "ens reaa" from rfl, matchAt_cons]
  rw [show ciPrefixB ('m' :: s2l "ens reaa") (c :: r) =
    (ciEq 'm' c && ciPrefixB (s2l "ens reaa") r) from rfl]
  rw [ciEq_m c hc]
  simp

theorem matchAt_prev_congr (w : List Char) (p q : Option Char) (t : List Char)
    (h : wordOpt p = wordOpt q) : matchAt w p t = matchAt w q t := by
  cases w with
  | nil => show (wordOpt p != _) = (wordOpt q != _); rw [h]
  | cons a w =>
    rw [matchAt_cons, matchAt_cons, h]

/-- The scanner reads `prev` only through its word-character status. -/
theorem subWordGo_prev_congr (w new : List Char) :
    ∀ (t : List Char) (p q : Option Char) (s : Nat),
      wordOpt p = wordOpt q → subWordGo w new p s t = subWordGo w new q s t := by
  intro t
  induction t with
  | nil =>
    intro p q s h
    cases s with
    | zero => rw [subWordGo_nil_zero, subWordGo_nil_zero, matchAt_prev_congr w p q _ h]
    | succ k => rfl
  | cons c r ih =>
    intro p q s h
    cases s with
    | succ k => rfl
    | zero =>
      rw [subWordGo_cons_zero, subWordGo_cons_zero, matchAt_prev_congr w p q _ h]

/-- Scanning skips over an all-non-word prefix unchanged. -/
theorem subWord_mr_skip (new t : List Char) :
    ∀ (u : List Char) (prev : Option Char),
      (∀ c ∈ u, isWordChar c = false) → wordOpt prev = false →
      subWordGo (s2l "mens reaa") new prev 0 (u ++ t) =
        u ++ subWordGo (s2l "mens reaa") new none 0 t := by
  intro u
  induction u with
  | nil =>
    intro prev _ hp
    simp only [List.nil_append]
    exact subWordGo_prev_congr _ _ _ prev none 0 (by rw [hp]; rfl)
  | cons c u' ih =>
    intro prev h hp
    have hc : isWordChar c = false := h c (by simp)
    show subWordGo (s2l "mens reaa") new prev 0 (c :: (u' ++ t)) = _
    rw [subWordGo_cons_zero, if_neg (by simp [matchAt_mr_nonword prev c _ hc])]
    rw [ih (some c) (fun x hx => h x (by simp [hx])) (by rw [wordOpt_some]; exact hc)]
    rfl

theorem ciPrefixB_append_self (w t : List Char) : ciPrefixB w (w ++ t) = true := by
  induction w with
  | nil => rfl
  | cons c w ih =>
    show (ciEq c c && ciPrefixB w (w ++ t)) = true
    rw [ih]
    simp [ciEq]

/-- At a word boundary, the pattern `\bmens reaa\b` matches its own literal
occurrence when followed by a non-word character (or the end). -/
theorem matchAt_mr (prev : Option Char) (t : List Char)
    (hp : wordOpt prev = false) (ht : wordOpt t.head? = false) :
    matchAt (s2l "mens reaa") prev (s2l "mens reaa" ++ t) = true := by
  have h2 : ciPrefixB (s2l "mens reaa") (s2l "mens reaa" ++ t) = true :=
    ciPrefixB_append_self (s2l "mens reaa") t
  have h3 : ((s2l "mens reaa" ++ t).take (s2l "mens reaa").length) =
      s2l "mens reaa" := List.take_left (s2l "mens reaa") t
  have h4 : ((s2l "mens reaa" ++ t).drop (s2l "mens reaa").length) = t :=
    List.drop_left (s2l "mens reaa") t
  show ((wordOpt prev != wordOpt (s2l "mens reaa" ++ t).head?) &&
      ciPrefixB (s2l "mens reaa") (s2l "mens reaa" ++ t) &&
      (wordOpt (((s2l "mens reaa" ++ t).take (s2l "mens reaa").length).getLast?) !=
        wordOpt (((s2l "mens reaa" ++ t).drop (s2l "mens reaa").length).head?))) = true
  rw [h2, h3, h4, hp, ht,
    show (s2l "mens reaa" ++ t).head? = some 'm' from rfl]
  decide

/-- One unfolding of the scanner on a literal occurrence of the phrase. -/
theorem subWordGo_mr_append (new t : List Char) (prev : Option Char) :
    subWordGo (s2l "mens reaa") new prev 0 (s2l "mens reaa" ++ t) =
      if matchAt (s2l "mens reaa") prev (s2l "mens reaa" ++ t) then
        new ++ subWordGo (s2l "mens reaa") new (some 'm') 8 (s2l "ens reaa" ++ t)
      else
        'm' :: subWordGo (s2l "mens reaa") new (some 'm') 0
          (s2l "ens reaa" ++ t) := rfl

/-- Skipping the eight remaining matched characters of `mens reaa`. -/
theorem subWordGo_skip_after_mr (new t : List Char) (prev : Option Char) :
    subWordGo (s2l "mens reaa") new prev 8 (s2l "ens reaa" ++ t) =
      subWordGo (s2l "mens reaa") new (some 'a') 0 t := rfl

/-- A whole-word occurrence of `mens reaa` is replaced and scanning
continues after it. -/
theorem subWord_mr_match (new t : List Char) (prev : Option Char)
    (hp : wordOpt prev = false) (ht : wordOpt t.head? = false) :
    subWordGo (s2l "mens reaa") new prev 0 (s2l "mens reaa" ++ t) =
      new ++ subWordGo (s2l "mens reaa") new (some 'a') 0 t := by
  rw [subWordGo_mr_append, if_pos (matchAt_mr prev t hp ht),
    subWordGo_skip_after_mr]

/-- All-non-word text contains no occurrence of the phrase. -/
theorem subWord_mr_tail (new : List Char) :
    ∀ (u : List Char) (prev : Option Char), (∀ c ∈ u, isWordChar c = false) →
      subWordGo (s2l "mens reaa") new prev 0 u = u := by
  intro u
  induction u with
  | nil =>
    intro prev _
    have hm : matchAt (s2l "mens reaa") prev [] = false := by
      show ((wordOpt prev != wordOpt (List.head? ([] : List Char))) &&
          ciPrefixB (s2l "mens reaa") [] &&
          (wordOpt ((([] : List Char).take (s2l "mens reaa").length).getLast?) !=
            wordOpt ((([] : List Char).drop (s2l "mens reaa").length).head?))) = false
      rw [show ciPrefixB (s2l "mens reaa") [] = false from rfl]
      simp
    rw [subWordGo_nil_zero, hm]
    rfl
  | cons c u' ih =>
    intro prev h
    have hc := h c (by simp)
    rw [subWordGo_cons_zero, if_neg (by simp [matchAt_mr_nonword prev c u' hc])]
    rw [ih (some c) (fun x hx => h x (by simp [hx]))]

theorem wordOpt_head_nonword (w_ : List Char)
    (h : ∀ c ∈ w_, isWordChar c = false) : wordOpt w_.head? = false := by
  cases w_ with
  | nil => rfl
  | cons c r =>
    rw [show (c :: r).head? = some c from rfl, wordOpt_some]
    exact h c (by simp)

/-- C2 (amended): a replacement request substitutes every whole-word,
case-insensitive occurrence of `old` in the paragraph (Python `re.sub`
replaces all matches, not only the first): with non-word context `u`,
separator `v` and tail `w_`, both occurrences of `mens reaa` are replaced.
(The model reads the replacement literally, hence the no-backslash
hypothesis.) -/
theorem c2_amended (u v w_ new : List Char)
    (hu : ∀ c ∈ u, isWordChar c = false)
    (hv : ∀ c ∈ v, isWordChar c = false)
    (hw : ∀ c ∈ w_, isWordChar c = false)
    (hvne : v ≠ [])
    (_hb : new.contains '\\' = false) :
    apply_replacements_to_doc
        [u ++ s2l "mens reaa" ++ v ++ s2l "mens reaa" ++ w_]
        [⟨s2l "mens reaa", new⟩] =
      [u ++ new ++ v ++ new ++ w_] := by
  obtain ⟨c, v', rfl⟩ : ∃ c v', v = c :: v' := by
    cases v with
    | nil => exact absurd rfl hvne
    | cons c v' => exact ⟨c, v', rfl⟩
  have hc : isWordChar c = false := hv c (by simp)
  have hv' : ∀ x ∈ v', isWordChar x = false := fun x hx => hv x (by simp [hx])
  unfold apply_replacements_to_doc
  simp only [List.map_cons, List.map_nil, List.foldl_cons, List.foldl_nil]
  have hguard : hasSub (lowerList (s2l "mens reaa"))
      (lowerList (u ++ s2l "mens reaa" ++ (c :: v') ++ s2l "mens reaa" ++ w_)) =
      true := by
    apply hasSub_of_eq_append _ _ (List.map pyLowerChar u)
      (List.map pyLowerChar (c :: v') ++ lowerList (s2l "mens reaa") ++
        List.map pyLowerChar w_)
    simp [lowerList, List.map_append, List.append_assoc]
  rw [if_pos hguard]
  unfold subWordCI
  rw [show u ++ s2l "mens reaa" ++ (c :: v') ++ s2l "mens reaa" ++ w_ =
      u ++ (s2l "mens reaa" ++ ((c :: v') ++ (s2l "mens reaa" ++ w_)))
    from by simp [List.append_assoc]]
  rw [subWord_mr_skip new _ u none hu rfl]
  rw [subWord_mr_match new ((c :: v') ++ (s2l "mens reaa" ++ w_)) none rfl
    (by rw [show ((c :: v') ++ (s2l "mens reaa" ++ w_)).head? = some c from rfl,
      wordOpt_some]; exact hc)]
  rw [show (c :: v') ++ (s2l "mens reaa" ++ w_) =
    c :: (v' ++ (s2l "mens reaa" ++ w_)) from rfl]
  rw [subWordGo_cons_zero, if_neg (by simp [matchAt_mr_nonword _ c _ hc])]
  rw [subWord_mr_skip new (s2l "mens reaa" ++ w_) v' (some c) hv'
    (by rw [wordOpt_some]; exact hc)]
  rw [subWord_mr_match new w_ none rfl (wordOpt_head_nonword w_ hw)]
  rw [subWord_mr_tail new w_ (some 'a') hw]
  simp [List.append_assoc]

/-- C2 witness: the spec's boundary case, both occurrences in one
paragraph. -/
theorem c2_witness :
    ((∀ c ∈ ([] : List Char), isWordChar c = false) ∧
        (∀ c ∈ s2l ", ", isWordChar c = false) ∧
        (∀ c ∈ ([] : List Char), isWordChar c = false) ∧
        s2l ", " ≠ [] ∧ (s2l "mens rea").contains '\\' = false) ∧
      apply_replacements_to_doc [s2l "mens reaa, mens reaa"]
          [⟨s2l "mens reaa", s2l "mens rea"⟩] =
        [s2l "mens rea, mens rea"] :=
  ⟨⟨by decide, by decide, by decide, by decide, by decide⟩,
   (c2_amended [] (s2l ", ") [] (s2l "mens rea") (by decide) (by decide)
     (by decide) (by decide) (by decide)).trans (by decide)⟩

/-- C2 counterexample: the second occurrence of `mens reaa` in the same
paragraph is replaced too — "only the first occurrence per paragraph is
replaced; a second occurrence is left unchanged" fails on the code. -/
theorem c2_counterexample :
    apply_replacements_to_doc [s2l "mens reaa and mens reaa"]
        [⟨s2l "mens reaa", s2l "mens rea"⟩] =
      [s2l "mens rea and mens rea"] ∧
      apply_replacements_to_doc [s2l "mens reaa and mens reaa"]
          [⟨s2l "mens reaa", s2l "mens rea"⟩] ≠
        [s2l "mens rea and mens reaa"] := by
  constructor <;> decide
